import Mathlib

/-!
Verification of the ledger representation layer (`bitcoin/ledger.py`): the
pruned `UnspentTransaction` record and its wire format, together with the
per-output `ContractOutPoint` and `OutputData` record types.

The repository's own primitive codecs (`serialize_varint`, `serialize_leint`,
`compress_amount`, the script pickler, the `hash256` digest type and
`core.Transaction`) are external collaborators that are not part of the
ledger module; they are modelled here from their interface contracts.
Everything else is translated directly from `bitcoin/ledger.py`.

Bytes are modelled as natural numbers and byte strings as `List Nat`; a
stream is a `List Nat` that deserializers consume from the front, returning
the decoded value together with the unread remainder.  Python exceptions
are modelled by `Option`: a raise is `none`.
-/

namespace Ledger

/-- Modelled from the spec: the repository's variable-length unsigned-integer
codec (`bitcoin.serialize.serialize_varint`) is not under `src/`; its contract
is a self-terminating variable-length encoding with a bit-exact round trip for
all non-negative integers.  We use a little-endian base-128 encoding with a
continuation bit, which satisfies that contract. -/
def serialize_varint (n : Nat) : List Nat :=
  if n < 128 then [n]
  else (n % 128 + 128) :: serialize_varint (n / 128)
termination_by n
decreasing_by
  exact Nat.div_lt_self (by omega) (by omega)

/-- Modelled from the spec: decoder for `serialize_varint`; reads bytes while
the continuation bit is set.  Fails (`none`) on a truncated stream. -/
def deserialize_varint : List Nat → Option (Nat × List Nat)
  | [] => none
  | b :: bs =>
    if b < 128 then some (b, bs)
    else do
      let (m, rest) ← deserialize_varint bs
      some (b - 128 + 128 * m, rest)

/-- Modelled from the spec: the minimal little-endian integer codec
(`bitcoin.serialize.serialize_leint`) is not under `src/`; its contract is
that `encode n` is the shortest little-endian byte string for `n` with no
trailing zero byte, `0` being encoded as the empty string. -/
def serialize_leint (n : Nat) : List Nat :=
  if n = 0 then []
  else n % 256 :: serialize_leint (n / 256)
termination_by n
decreasing_by
  exact Nat.div_lt_self (by omega) (by omega)

/-- Value of a little-endian byte string. -/
def leBytesToNat : List Nat → Nat
  | [] => 0
  | b :: bs => b + 256 * leBytesToNat bs

/-- Modelled from the spec: `deserialize_leint` reads exactly `len` bytes from
the stream and reconstructs the little-endian value; it fails only when the
stream is shorter than `len`. -/
def deserialize_leint (s : List Nat) (len : Nat) : Option (Nat × List Nat) :=
  if len ≤ s.length then some (leBytesToNat (s.take len), s.drop len)
  else none

/-- Modelled from the spec: the amount compressor (`bitcoin.tools
.compress_amount`) is not under `src/`; its contract is only that it is a
reversible encoding of satoshi amounts.  Any section/retraction pair
satisfies that contract; we use a simple non-identity one so that a missing
`decompress_amount` in the model would be visible. -/
def compress_amount (amount : Nat) : Nat := amount + 1

/-- Modelled from the spec: inverse of `compress_amount`. -/
def decompress_amount (x : Nat) : Nat := x - 1

/-- An opaque script/contract payload.  The contract type itself is external
to the ledger module; only its codec behaviour matters here. -/
structure Contract where
  payload : List Nat
deriving DecidableEq

/-- Modelled from the spec: the script pickler (`bitcoin.script.ScriptPickler
.dumps`) is not under `src/`; its contract is a self-delimiting,
round-trip-preserving serialization of opaque contract payloads.  We use a
length-prefixed encoding, which satisfies that contract. -/
def pickler_dumps (c : Contract) : List Nat :=
  serialize_varint c.payload.length ++ c.payload

/-- Modelled from the spec: decoder for `pickler_dumps` (`ScriptPickler.load`);
fails on a truncated stream. -/
def pickler_load (s : List Nat) : Option (Contract × List Nat) := do
  let (len, s') ← deserialize_varint s
  if len ≤ s'.length then some (⟨s'.take len⟩, s'.drop len)
  else none

/-- Little-endian digits of `n` padded/truncated to exactly `k` bytes. -/
def leFixed (n : Nat) : Nat → List Nat
  | 0 => []
  | k + 1 => n % 256 :: leFixed (n / 256) k

/-- Modelled from the spec: the `hash256` digest type is not under `src/`;
its contract is a fixed-size (256-bit, 32-byte) canonical serialization.
A digest is modelled as a natural number below `2 ^ 256`. -/
def hash256_serialize (h : Nat) : List Nat := leFixed h 32

/-- Modelled from the spec: fixed-size decoder for `hash256`; reads exactly
32 bytes, failing on a truncated stream. -/
def hash256_deserialize (s : List Nat) : Option (Nat × List Nat) :=
  if 32 ≤ s.length then some (leBytesToNat (s.take 32), s.drop 32)
  else none

/-- A transaction output, as stored in the pruned record: an amount and the
contract (script) entitled to spend it (`bitcoin.core.Output`). -/
structure Output where
  amount : Nat
  contract : Contract
deriving DecidableEq

/-- The pruned transaction record of `bitcoin/ledger.py`: scalar metadata plus
the ordered mapping from output index to retained output.  The `sorteddict`
superclass is modelled as an association list whose keys are kept in strictly
ascending order (the sorted-iteration invariant of `sorteddict`). -/
structure UnspentTransaction where
  version : Nat
  height : Nat
  reference_height : Nat
  outputs : List (Nat × Output)
deriving DecidableEq

/-- The unspentness bitvector of `UnspentTransaction.serialize`:
`bitvector |= 1 << idx` over the retained output indices. -/
def bitvectorOf (ks : List Nat) : Nat :=
  ks.foldl (fun acc k => acc ||| (1 <<< k)) 0

/-- The `code` byte and overflow byte string computed by
`UnspentTransaction.serialize` from a non-zero unspentness bitvector:
`code = bitvector & 0x7`, the rest of the bitvector is minimal-little-endian
encoded, and the byte count (minus one when the low three bits are all clear)
is packed into `code`'s high bits. -/
def codeAndBytes (bv : Nat) : Nat × List Nat :=
  let code := bv &&& 7
  let bytes := serialize_leint (bv >>> 3)
  let len := if code = 0 then bytes.length - 1 else bytes.length
  (code ||| (len <<< 3), bytes)

/-- The per-output payload of `UnspentTransaction.serialize`: for each
retained output in ascending index order, the varint of the compressed
amount followed by the pickled contract. -/
def serializeOutputs (os : List (Nat × Output)) : List Nat :=
  os.foldr (fun p acc =>
    serialize_varint (compress_amount p.2.amount) ++ pickler_dumps p.2.contract ++ acc) []

/-- `UnspentTransaction.serialize`.  Serializing a record that retains no
outputs (zero bitvector) raises, modelled by `none`. -/
def UnspentTransaction.serialize (u : UnspentTransaction) : Option (List Nat) :=
  let bv := bitvectorOf (u.outputs.map Prod.fst)
  if bv = 0 then none
  else
    some (serialize_varint u.version
      ++ serialize_varint (codeAndBytes bv).1
      ++ (codeAndBytes bv).2
      ++ serializeOutputs u.outputs
      ++ serialize_varint u.height
      ++ (if u.version = 2 then serialize_varint u.reference_height else []))

/-- The bitvector-recovery steps of `UnspentTransaction.deserialize`:
`bitvector = code & 0x7`, `code >>= 3`, `code += 1` when the low three bits
were all clear, then `code` further little-endian bytes are read and merged
in above bit 2. -/
def decodeBitvector (code : Nat) (s : List Nat) : Option (Nat × List Nat) :=
  let bitvector := code &&& 7
  let code := code >>> 3
  let code := if bitvector = 0 then code + 1 else code
  if code = 0 then some (bitvector, s)
  else do
    let (ov, s') ← deserialize_leint s code
    some (bitvector ||| (ov <<< 3), s')

/-- The output-reading loop of `UnspentTransaction.deserialize`: walk the
recovered bitvector from bit 0 upwards, reading a compressed amount and a
pickled contract for every set bit, and advancing the index for every bit
examined. -/
def readOutputs (bitvector idx : Nat) (s : List Nat) :
    Option (List (Nat × Output) × List Nat) :=
  if bitvector = 0 then some ([], s)
  else if bitvector &&& 1 ≠ 0 then do
    let (ca, s₁) ← deserialize_varint s
    let (c, s₂) ← pickler_load s₁
    let (items, s₃) ← readOutputs (bitvector >>> 1) (idx + 1) s₂
    some ((idx, Output.mk (decompress_amount ca) c) :: items, s₃)
  else readOutputs (bitvector >>> 1) (idx + 1) s
termination_by bitvector
decreasing_by
  all_goals
    rw [Nat.shiftRight_one]
    exact Nat.div_lt_self (by omega) (by omega)

/-- Modelled from the spec: `bitcoin.core.Transaction` is not under `src/`.
Per the spec it carries a `version`, a `reference_height` and a list of
outputs; it has no `height` attribute, so the constructor's
`getattr(other, 'height', 0)` falls back to `0` for it. -/
structure Transaction where
  version : Nat
  reference_height : Nat
  outputs : List Output
deriving DecidableEq

/-- The positional argument of `UnspentTransaction.__init__`: absent, an
initial-items list, or a source object carrying `version`/`height`/
`reference_height` attributes (another `UnspentTransaction`). -/
inductive PosArg where
  | nothing : PosArg
  | items : List (Nat × Output) → PosArg
  | source : UnspentTransaction → PosArg
deriving DecidableEq

/-- The keyword arguments of `UnspentTransaction.__init__` that the ledger
module inspects: `transaction`, `version`, `height`, `reference_height`.
`none` means the keyword was not passed. -/
structure CtorKwargs where
  transaction : Option Transaction
  version : Option Nat
  height : Option Nat
  reference_height : Option Nat
deriving DecidableEq

/-- `UnspentTransaction.__init__`.  Raising `TypeError` on conflicting
construction sources is modelled by `none`.  On success the result is the
constructed record, paired with the `reference_height` keyword argument that
was left unconsumed (it is forwarded to the `sorteddict` superclass
constructor exactly when the effective version is not 2). -/
def utxInit (arg : PosArg) (kw : CtorKwargs) :
    Option (UnspentTransaction × Option Nat) :=
  let other : Option UnspentTransaction :=
    match arg with
    | PosArg.source u => some u
    | _ => none
  let a := kw.transaction.isSome
  let b := other.isSome
  let c := kw.version.isSome || kw.reference_height.isSome
  if 2 ≤ a.toNat + b.toNat + c.toNat then none
  else
    let otherVersion : Nat :=
      match other, kw.transaction with
      | some u, _ => u.version
      | none, some t => t.version
      | none, none => 1
    let otherHeight : Nat :=
      match other with
      | some u => u.height
      | none => 0
    let otherRef : Nat :=
      match other, kw.transaction with
      | some u, _ => u.reference_height
      | none, some t => t.reference_height
      | none, none => 0
    let version := kw.version.getD otherVersion
    let height := kw.height.getD otherHeight
    let refAndFwd : Nat × Option Nat :=
      if version = 2 then (kw.reference_height.getD otherRef, none)
      else (otherRef, kw.reference_height)
    let base : List (Nat × Output) :=
      match arg with
      | PosArg.nothing => []
      | PosArg.items xs => xs
      | PosArg.source u => u.outputs
    let entries : List (Nat × Output) :=
      match kw.transaction with
      | some t => if base.isEmpty then t.outputs.enum else base
      | none => base
    some (UnspentTransaction.mk version height refAndFwd.1 entries, refAndFwd.2)

/-- `UnspentTransaction.deserialize`: read version and code varints, recover
the bitvector, read the retained outputs, then height and (for version 2)
reference height, and build the record through the constructor. -/
def UnspentTransaction.deserialize (s : List Nat) :
    Option (UnspentTransaction × List Nat) := do
  let (version, s₁) ← deserialize_varint s
  let (code, s₂) ← deserialize_varint s₁
  let (bv, s₃) ← decodeBitvector code s₂
  let (items, s₄) ← readOutputs bv 0 s₃
  let (height, s₅) ← deserialize_varint s₄
  if version = 2 then do
    let (rh, s₆) ← deserialize_varint s₅
    let (u, _) ← utxInit (PosArg.items items)
      (CtorKwargs.mk none (some version) (some height) (some rh))
    some (u, s₆)
  else do
    let (u, _) ← utxInit (PosArg.items items)
      (CtorKwargs.mk none (some version) (some height) none)
    some (u, s₅)

/-- `UnspentTransaction.__eq__`: compare height and version, then (for
version 2) reference height, short-circuiting on mismatch, and only then the
underlying output mapping. -/
def UnspentTransaction.eqb (u other : UnspentTransaction) : Bool :=
  if u.height ≠ other.height || u.version ≠ other.version then false
  else if u.version = 2 && u.reference_height ≠ other.reference_height then false
  else decide (u.outputs = other.outputs)

/-- The `OutputData` record type (`recordtype('OutputData', ['version',
'amount', 'height', 'reference_height'])`): per-output metadata independent
of the owning transaction.  All four fields are required and have no
default. -/
structure OutputData where
  version : Nat
  amount : Nat
  height : Nat
  reference_height : Nat
deriving DecidableEq

/-- `OutputData.serialize` (`_serialize_output_data`): the varints of
version, height and compressed amount, and, when the version is 2, one
further varint holding `(height << 1) | reference_height`. -/
def _serialize_output_data (x : OutputData) : List Nat :=
  List.flatten
    ([serialize_varint x.version,
      serialize_varint x.height,
      serialize_varint (compress_amount x.amount)]
     ++ (if x.version = 2 then
          [serialize_varint ((x.height <<< 1) ||| x.reference_height)]
        else []))

/-- `OutputData.deserialize` (`_deserialize_output_data`): reads version,
height and compressed amount, and reads a further varint into
`reference_height` only when the version is 2.  When the version is not 2,
the final `cls(**kwargs)` call omits `reference_height`, a required
`recordtype` field with no default, so construction raises `TypeError`;
that failure is modelled by `none`. -/
def _deserialize_output_data (s : List Nat) : Option (OutputData × List Nat) := do
  let (version, s₁) ← deserialize_varint s
  let (height, s₂) ← deserialize_varint s₁
  let (ca, s₃) ← deserialize_varint s₂
  if version = 2 then do
    let (rh, s₄) ← deserialize_varint s₃
    some (OutputData.mk version (decompress_amount ca) height rh, s₄)
  else none

/-- The `ContractOutPoint` record type: a per-output key made of the
claiming contract, the transaction hash (a 256-bit digest modelled as a
natural number) and the output index. -/
structure ContractOutPoint where
  contract : Contract
  hash : Nat
  index : Nat
deriving DecidableEq

/-- `ContractOutPoint.serialize` (`_serialize_contract_outpoint`): the
contract-codec bytes of the contract, the fixed-size hash bytes, then the
varint of the index.  Modelled from the spec for the first segment: the
source pickles `self.contract.serialize()`, and both `ScriptPickler` and the
contract type's own `serialize` method live outside `src/`; spec §4.2
specifies the segment as the contract-codec bytes of the contract. -/
def _serialize_contract_outpoint (p : ContractOutPoint) : List Nat :=
  pickler_dumps p.contract ++ hash256_serialize p.hash ++ serialize_varint p.index

/-- `ContractOutPoint.deserialize` (`_deserialize_contract_outpoint`): load
the contract from the pickler, then the fixed-size hash, then the index
varint. -/
def _deserialize_contract_outpoint (s : List Nat) :
    Option (ContractOutPoint × List Nat) := do
  let (contract, s₁) ← pickler_load s
  let (hash, s₂) ← hash256_deserialize s₁
  let (index, s₃) ← deserialize_varint s₂
  some (ContractOutPoint.mk contract hash index, s₃)

/-! ### Statement-side definitions

The following definitions restate parts of the specification's wording
independently of the code above, so that the claim theorems can compare the
two. -/

/-- Spec wording for the `OutputData` wire format: `varint(version)`,
`varint(height)`, `varint(compressed(amount))`; if version is 2, one further
varint equal to `(height << 1) | reference_height`. -/
def outputDataWireSpec (x : OutputData) : List Nat :=
  serialize_varint x.version
    ++ serialize_varint x.height
    ++ serialize_varint (compress_amount x.amount)
    ++ (if x.version = 2 then serialize_varint ((x.height <<< 1) ||| x.reference_height)
        else [])

/-- The number of overflow bytes a decoder is told to read by a `code`
value: the high bits of `code`, plus one when the low three bits are all
clear. -/
def declaredOverflowLen (code : Nat) : Nat :=
  if code &&& 7 = 0 then (code >>> 3) + 1 else code >>> 3

/-- Spec wording for the number of construction sources supplied to
`UnspentTransaction.__init__`: how many of {source transaction, source
instance, explicit version/reference_height metadata} are present. -/
def numSources (arg : PosArg) (kw : CtorKwargs) : Nat :=
  (if kw.transaction.isSome then 1 else 0)
    + (match arg with | PosArg.source _ => 1 | _ => 0)
    + (if kw.version.isSome ∨ kw.reference_height.isSome then 1 else 0)

/-- The effective version chosen by `UnspentTransaction.__init__`: the
`version` keyword if passed, else the source object's version, else 1. -/
def effectiveVersion (arg : PosArg) (kw : CtorKwargs) : Nat :=
  kw.version.getD
    (match arg with
     | PosArg.source u => u.version
     | _ => match kw.transaction with
            | some t => t.version
            | none => 1)

/-- The source object's `reference_height` seen by
`UnspentTransaction.__init__`: from the positional source instance if given,
else from the `transaction` keyword, else 0. -/
def sourceRefHeight (arg : PosArg) (kw : CtorKwargs) : Nat :=
  match arg with
  | PosArg.source u => u.reference_height
  | _ => match kw.transaction with
         | some t => t.reference_height
         | none => 0

/-! ### Codec lemmas -/

theorem deserialize_varint_serialize (n : Nat) :
    ∀ rest : List Nat, deserialize_varint (serialize_varint n ++ rest) = some (n, rest) := by
  induction n using Nat.strong_induction_on with
  | _ n ih =>
    intro rest
    rw [serialize_varint]
    by_cases h : n < 128
    · simp [deserialize_varint, h]
    · have hlt : n / 128 < n := Nat.div_lt_self (by omega) (by omega)
      simp only [h, if_false, List.cons_append, deserialize_varint]
      have hb : ¬ (n % 128 + 128 < 128) := by omega
      simp only [hb, if_false, ih (n / 128) hlt rest, Option.bind_eq_bind,
        Option.some_bind, Option.some.injEq, Prod.mk.injEq]
      constructor
      · omega
      · trivial

theorem leBytesToNat_serialize_leint (n : Nat) :
    leBytesToNat (serialize_leint n) = n := by
  induction n using Nat.strong_induction_on with
  | _ n ih =>
    rw [serialize_leint]
    by_cases h : n = 0
    · simp [h, leBytesToNat]
    · have hlt : n / 256 < n := Nat.div_lt_self (by omega) (by omega)
      simp only [h, if_false, leBytesToNat, ih (n / 256) hlt]
      have := Nat.mod_add_div n 256
      omega

theorem serialize_leint_eq_nil_iff (n : Nat) : serialize_leint n = [] ↔ n = 0 := by
  constructor
  · intro h
    by_contra hn
    rw [serialize_leint] at h
    simp [hn] at h
  · intro h
    rw [h, serialize_leint]
    simp

theorem serialize_leint_getLast?_ne (n : Nat) :
    (serialize_leint n).getLast? ≠ some 0 := by
  induction n using Nat.strong_induction_on with
  | _ n ih =>
    rw [serialize_leint]
    by_cases hn : n = 0
    · simp [hn]
    · simp only [hn, if_false]
      by_cases htl : serialize_leint (n / 256) = []
      · have h0 : n / 256 = 0 := (serialize_leint_eq_nil_iff _).mp htl
        have hlt : n < 256 := by
          by_contra h'
          have := Nat.div_le_div_right (c := 256) (Nat.le_of_not_lt h')
          omega
        rw [htl, List.getLast?_singleton]
        have : n % 256 = n := Nat.mod_eq_of_lt hlt
        simp [this, hn]
      · obtain ⟨b, tl, hbt⟩ := List.exists_cons_of_ne_nil htl
        rw [hbt, List.getLast?_cons_cons, ← hbt]
        exact ih (n / 256) (Nat.div_lt_self (by omega) (by omega))

theorem serialize_leint_getLast (n : Nat) :
    ∀ h : serialize_leint n ≠ [], (serialize_leint n).getLast h ≠ 0 := by
  intro h heq
  have := List.getLast?_eq_getLast (serialize_leint n) h
  rw [heq] at this
  exact serialize_leint_getLast?_ne n this

theorem deserialize_leint_append (B rest : List Nat) :
    deserialize_leint (B ++ rest) B.length = some (leBytesToNat B, rest) := by
  unfold deserialize_leint
  have hlen : B.length ≤ (B ++ rest).length := by
    simp [List.length_append]
  simp [hlen, List.take_left, List.drop_left]

theorem decompress_compress (a : Nat) : decompress_amount (compress_amount a) = a := by
  simp [compress_amount, decompress_amount]

theorem pickler_load_dumps (c : Contract) (rest : List Nat) :
    pickler_load (pickler_dumps c ++ rest) = some (c, rest) := by
  unfold pickler_load pickler_dumps
  rw [List.append_assoc, deserialize_varint_serialize]
  have hlen : c.payload.length ≤ (c.payload ++ rest).length := by
    simp [List.length_append]
  simp [hlen, List.take_left, List.drop_left]

theorem leFixed_length (n k : Nat) : (leFixed n k).length = k := by
  induction k generalizing n with
  | zero => rfl
  | succ k ih => simp [leFixed, ih]

theorem leBytesToNat_leFixed (k : Nat) :
    ∀ n : Nat, leBytesToNat (leFixed n k) = n % 256 ^ k := by
  induction k with
  | zero => intro n; simp [leFixed, leBytesToNat, Nat.mod_one]
  | succ k ih =>
    intro n
    simp only [leFixed, leBytesToNat, ih (n / 256)]
    have h1 : n % 256 ^ (k + 1) = n % 256 + 256 * (n / 256 % 256 ^ k) := by
      rw [pow_succ, mul_comm (256 ^ k) 256]
      exact Nat.mod_mul
    omega

theorem hash256_roundtrip (h : Nat) (hlt : h < 2 ^ 256) (rest : List Nat) :
    hash256_deserialize (hash256_serialize h ++ rest) = some (h, rest) := by
  unfold hash256_deserialize hash256_serialize
  have hlen : (leFixed h 32).length = 32 := leFixed_length h 32
  have hle : 32 ≤ (leFixed h 32 ++ rest).length := by
    rw [List.length_append, hlen]
    omega
  have htake : (leFixed h 32 ++ rest).take 32 = leFixed h 32 := List.take_left' hlen
  have hdrop : (leFixed h 32 ++ rest).drop 32 = rest := List.drop_left' hlen
  have hval : leBytesToNat (leFixed h 32) = h := by
    rw [leBytesToNat_leFixed]
    have : (256 : Nat) ^ 32 = 2 ^ 256 := by norm_num
    rw [this]
    exact Nat.mod_eq_of_lt hlt
  simp [hle, htake, hdrop, hval, List.length_append, hlen, Nat.le_add_right]

/-! ### Bit-arithmetic bridges -/

theorem and7_eq_mod (n : Nat) : n &&& 7 = n % 8 := by
  have h : (7 : Nat) = 2 ^ 3 - 1 := by norm_num
  rw [h, Nat.and_pow_two_sub_one_eq_mod]

theorem shiftRight3_eq_div (n : Nat) : n >>> 3 = n / 8 := by
  rw [Nat.shiftRight_eq_div_pow]

theorem shiftLeft3_eq_mul (n : Nat) : n <<< 3 = 8 * n := by
  have h : (2 : Nat) ^ 3 = 8 := by norm_num
  rw [Nat.shiftLeft_eq, h, Nat.mul_comm]

theorem or_div_eight (x y : Nat) : (x ||| y) / 8 = x / 8 ||| y / 8 := by
  have e : ∀ z : Nat, z / 8 = z / 2 / 2 / 2 := by
    intro z
    omega
  rw [e (x ||| y), e x, e y, Nat.or_div_two, Nat.or_div_two, Nat.or_div_two]

theorem or_shiftLeft3 (a m : Nat) (h : a < 8) : a ||| (m <<< 3) = a + 8 * m := by
  have hmod : (a ||| (m <<< 3)) % 8 = a := by
    rw [← and7_eq_mod, Nat.and_distrib_right, and7_eq_mod, and7_eq_mod,
      Nat.mod_eq_of_lt h, shiftLeft3_eq_mul, Nat.mul_mod_right, Nat.or_zero]
  have hdiv : (a ||| (m <<< 3)) / 8 = m := by
    rw [or_div_eight, Nat.div_eq_of_lt h, shiftLeft3_eq_mul]
    have h8 : 8 * m / 8 = m := by omega
    simp [h8]
  omega

/-! ### Bitvector lemmas -/

theorem testBit_foldl_or (ks : List Nat) :
    ∀ (acc j : Nat),
      (ks.foldl (fun a k => a ||| (1 <<< k)) acc).testBit j
        = (acc.testBit j || decide (j ∈ ks)) := by
  induction ks with
  | nil => intro acc j; simp
  | cons k ks ih =>
    intro acc j
    rw [List.foldl_cons, ih, Nat.testBit_or]
    have hk : (1 <<< k).testBit j = decide (j = k) := by
      rw [Nat.one_shiftLeft, Nat.testBit_two_pow]
      simp [eq_comm]
    rw [hk]
    simp [List.mem_cons, Bool.or_assoc]

theorem testBit_bitvectorOf (ks : List Nat) (j : Nat) :
    (bitvectorOf ks).testBit j = decide (j ∈ ks) := by
  unfold bitvectorOf
  rw [testBit_foldl_or]
  simp

theorem bitvectorOf_eq_zero_iff (ks : List Nat) : bitvectorOf ks = 0 ↔ ks = [] := by
  constructor
  · intro h
    cases ks with
    | nil => rfl
    | cons k ks =>
      have hbit := testBit_bitvectorOf (k :: ks) k
      rw [h] at hbit
      simp at hbit
  · intro h
    rw [h]
    rfl

theorem codeAndBytes_fst (bv : Nat) :
    (codeAndBytes bv).1
      = (bv &&& 7) + 8 * (if bv &&& 7 = 0 then (serialize_leint (bv >>> 3)).length - 1
                          else (serialize_leint (bv >>> 3)).length) := by
  have h8 : bv &&& 7 < 8 := by
    rw [and7_eq_mod]
    omega
  simp only [codeAndBytes]
  exact or_shiftLeft3 _ _ h8

theorem codeAndBytes_snd (bv : Nat) :
    (codeAndBytes bv).2 = serialize_leint (bv >>> 3) := rfl

theorem decodeBitvector_codeAndBytes (bv : Nat) (hbv : 0 < bv) (rest : List Nat) :
    decodeBitvector (codeAndBytes bv).1 ((codeAndBytes bv).2 ++ rest)
      = some (bv, rest) := by
  have h8 : bv &&& 7 < 8 := by
    rw [and7_eq_mod]
    omega
  have hval : leBytesToNat (serialize_leint (bv >>> 3)) = bv >>> 3 :=
    leBytesToNat_serialize_leint _
  rw [codeAndBytes_fst, codeAndBytes_snd]
  set B := serialize_leint (bv >>> 3) with hB
  set L' : Nat := if bv &&& 7 = 0 then B.length - 1 else B.length with hL'
  have e1 : ((bv &&& 7) + 8 * L') &&& 7 = bv &&& 7 := by
    rw [and7_eq_mod ((bv &&& 7) + 8 * L')]
    omega
  have e2 : ((bv &&& 7) + 8 * L') >>> 3 = L' := by
    rw [shiftRight3_eq_div]
    omega
  simp only [decodeBitvector, e1, e2]
  by_cases hc : bv &&& 7 = 0
  · -- indices 0-2 all absent: the stored length is L-1 and gets re-incremented
    have hge8 : 8 ≤ bv := by
      rw [and7_eq_mod] at hc
      omega
    have hpos : 0 < bv >>> 3 := by
      rw [shiftRight3_eq_div]
      omega
    have hBne : B ≠ [] := by
      rw [hB]
      intro hnil
      rw [serialize_leint_eq_nil_iff] at hnil
      omega
    have hLpos : 0 < B.length := List.length_pos.mpr hBne
    have hplus : L' + 1 = B.length := by
      rw [hL', if_pos hc]
      omega
    simp only [hc, if_true, if_pos rfl, hplus]
    have hne : B.length ≠ 0 := by omega
    simp only [hne, if_false, deserialize_leint_append, Option.bind_eq_bind,
      Option.some_bind, hval]
    have : (0 : Nat) ||| ((bv >>> 3) <<< 3) = bv := by
      rw [or_shiftLeft3 _ _ (by omega), and7_eq_mod] at *
      rw [shiftRight3_eq_div]
      omega
    rw [this]
  · -- some of indices 0-2 present: the stored length is used as is
    have hL'eq : L' = B.length := by
      rw [hL', if_neg hc]
    simp only [hc, if_false, hL'eq]
    by_cases hz : B.length = 0
    · have hBnil : B = [] := List.length_eq_zero.mp hz
      have hsh : bv >>> 3 = 0 := by
        have h' := hBnil
        rw [hB] at h'
        rwa [serialize_leint_eq_nil_iff] at h'
      rw [shiftRight3_eq_div] at hsh
      have hfix : bv &&& 7 = bv := by
        rw [and7_eq_mod]
        omega
      rw [if_pos hz, hBnil, List.nil_append, hfix]
    · simp only [hz, if_false, deserialize_leint_append, Option.bind_eq_bind,
        Option.some_bind, hval]
      have : (bv &&& 7) ||| ((bv >>> 3) <<< 3) = bv := by
        rw [or_shiftLeft3 _ _ h8, and7_eq_mod, shiftRight3_eq_div]
        omega
      rw [this]

/-! ### Output-loop lemmas -/

theorem shiftRight_and_one_ne_zero_iff (bv idx : Nat) :
    (bv >>> idx) &&& 1 ≠ 0 ↔ bv.testBit idx = true := by
  rw [Nat.and_one_is_mod, Nat.testBit_to_div_mod, Nat.shiftRight_eq_div_pow]
  simp only [decide_eq_true_eq]
  omega

theorem readOutputs_zero (idx : Nat) (s : List Nat) :
    readOutputs 0 idx s = some ([], s) := by
  rw [readOutputs]
  simp

theorem readOutputs_skip (d : Nat) :
    ∀ (bv idx : Nat) (s : List Nat),
      (∀ j, idx ≤ j → j < idx + d → bv.testBit j = false) →
      readOutputs (bv >>> idx) idx s = readOutputs (bv >>> (idx + d)) (idx + d) s := by
  induction d with
  | zero =>
    intro bv idx s _
    simp
  | succ d ih =>
    intro bv idx s h
    by_cases hz : bv >>> idx = 0
    · have hz2 : bv >>> (idx + (d + 1)) = 0 := by
        rw [Nat.shiftRight_add, hz, Nat.zero_shiftRight]
      rw [hz, hz2, readOutputs_zero, readOutputs_zero]
    · have hbit : bv.testBit idx = false := h idx le_rfl (by omega)
      have hand : (bv >>> idx) &&& 1 = 0 := by
        by_contra hne
        rw [(shiftRight_and_one_ne_zero_iff bv idx).mp hne] at hbit
        exact Bool.noConfusion hbit
      rw [readOutputs, if_neg hz]
      simp only [hand, ne_eq, not_true_eq_false, if_false, not_false_eq_true]
      have hshift : (bv >>> idx) >>> 1 = bv >>> (idx + 1) := by
        rw [← Nat.shiftRight_add]
      rw [hshift]
      have harith : idx + (d + 1) = (idx + 1) + d := by omega
      rw [harith]
      exact ih bv (idx + 1) s (fun j hj1 hj2 => h j (by omega) (by omega))

theorem readOutputs_serializeOutputs :
    ∀ (os : List (Nat × Output)) (idx : Nat) (rest : List Nat),
      (os.map Prod.fst).Pairwise (· < ·) →
      (∀ p ∈ os, idx ≤ p.1) →
      readOutputs (bitvectorOf (os.map Prod.fst) >>> idx) idx
        (serializeOutputs os ++ rest) = some (os, rest) := by
  intro os
  induction os with
  | nil =>
    intro idx rest _ _
    have hbv : bitvectorOf ([] : List Nat) = 0 := rfl
    simp [serializeOutputs, hbv, readOutputs_zero]
  | cons p os ih =>
    obtain ⟨k, o⟩ := p
    intro idx rest hpair hge
    have hmap : ((k, o) :: os).map Prod.fst = k :: os.map Prod.fst := by simp
    rw [hmap] at hpair ⊢
    rw [List.pairwise_cons] at hpair
    obtain ⟨hlt, hpair'⟩ := hpair
    have hk_ge : idx ≤ k := hge (k, o) (List.mem_cons_self _ _)
    set bv := bitvectorOf (k :: os.map Prod.fst) with hbv
    -- skip the unset bits between idx and k
    have hskip := readOutputs_skip (k - idx) bv idx (serializeOutputs ((k, o) :: os) ++ rest)
      (by
        intro j hj1 hj2
        rw [testBit_bitvectorOf]
        simp only [decide_eq_false_iff_not, List.mem_cons]
        rintro (hjk | hjmem)
        · omega
        · have := hlt j hjmem
          omega)
    have harith : idx + (k - idx) = k := by omega
    rw [harith] at hskip
    rw [hskip]
    -- bit k is set
    have hbit : bv.testBit k = true := by
      rw [testBit_bitvectorOf]
      simp
    have hne : bv >>> k ≠ 0 := by
      intro h0
      have h1 := Nat.testBit_shiftRight bv (i := k) (j := 0)
      rw [h0, Nat.add_zero, Nat.zero_testBit, hbit] at h1
      exact Bool.noConfusion h1
    have hand : (bv >>> k) &&& 1 ≠ 0 := (shiftRight_and_one_ne_zero_iff bv k).mpr hbit
    rw [readOutputs, if_neg hne, if_pos hand]
    -- the stream starts with this output's payload
    have hstream : serializeOutputs ((k, o) :: os) ++ rest
        = serialize_varint (compress_amount o.amount)
          ++ (pickler_dumps o.contract ++ (serializeOutputs os ++ rest)) := by
      simp [serializeOutputs, List.append_assoc]
    rw [hstream, deserialize_varint_serialize]
    simp only [Option.bind_eq_bind, Option.some_bind]
    rw [pickler_load_dumps]
    simp only [Option.some_bind]
    have hshift : (bv >>> k) >>> 1 = bv >>> (k + 1) := by
      rw [← Nat.shiftRight_add]
    rw [hshift]
    -- above bit k the bitvector agrees with that of the tail
    have hbv_eq : bv >>> (k + 1) = bitvectorOf (os.map Prod.fst) >>> (k + 1) := by
      apply Nat.eq_of_testBit_eq
      intro i
      rw [Nat.testBit_shiftRight, Nat.testBit_shiftRight, testBit_bitvectorOf,
        testBit_bitvectorOf]
      simp only [List.mem_cons]
      have : ¬ (k + 1 + i = k) := by omega
      simp [this]
    rw [hbv_eq]
    rw [ih (k + 1) rest hpair' (by
      intro q hq
      have := hlt q.1 (List.mem_map_of_mem Prod.fst hq)
      omega)]
    simp [decompress_compress]

/-! ### Claim theorems -/

/-- Claim C3: for every non-empty set of output indices, the code/bitvector
encoding is exact and invertible: `serialize` stores the low 3 bits of the
presence bitvector in `code`, stores in `code`'s high bits the byte length
`L` of the minimal little-endian encoding of `bitvector >> 3` (or `L - 1`
when the low 3 bits are all zero, `L ≥ 1` being guaranteed in that case),
and the deserialize steps reconstruct exactly the original bitvector. -/
theorem code_bitvector_exact (bv : Nat) (hbv : 0 < bv) (rest : List Nat) :
    (codeAndBytes bv).1 &&& 7 = bv &&& 7
    ∧ (codeAndBytes bv).1 >>> 3
        = (if bv &&& 7 = 0 then (serialize_leint (bv >>> 3)).length - 1
           else (serialize_leint (bv >>> 3)).length)
    ∧ (bv &&& 7 = 0 → 1 ≤ (serialize_leint (bv >>> 3)).length)
    ∧ decodeBitvector (codeAndBytes bv).1 ((codeAndBytes bv).2 ++ rest)
        = some (bv, rest) := by
  have h8 : bv &&& 7 < 8 := by
    rw [and7_eq_mod]
    omega
  have hlen1 : bv &&& 7 = 0 → 1 ≤ (serialize_leint (bv >>> 3)).length := by
    intro hc
    rw [and7_eq_mod] at hc
    have hpos : bv >>> 3 ≠ 0 := by
      rw [shiftRight3_eq_div]
      omega
    have hne : serialize_leint (bv >>> 3) ≠ [] := by
      rw [ne_eq, serialize_leint_eq_nil_iff]
      exact hpos
    have := List.length_pos.mpr hne
    omega
  refine ⟨?_, ?_, hlen1, decodeBitvector_codeAndBytes bv hbv rest⟩
  · rw [codeAndBytes_fst, and7_eq_mod ((bv &&& 7) + 8 * _)]
    omega
  · rw [codeAndBytes_fst, shiftRight3_eq_div]
    omega

/-- Claim C3 witness: concrete check at bitvector 9 (outputs 0 and 3). -/
theorem code_bitvector_exact_witness :
    (0 : Nat) < 9
    ∧ ((codeAndBytes 9).1 &&& 7 = 9 &&& 7
        ∧ (codeAndBytes 9).1 >>> 3
            = (if (9 : Nat) &&& 7 = 0 then (serialize_leint (9 >>> 3)).length - 1
               else (serialize_leint (9 >>> 3)).length)
        ∧ ((9 : Nat) &&& 7 = 0 → 1 ≤ (serialize_leint (9 >>> 3)).length)
        ∧ decodeBitvector (codeAndBytes 9).1 ((codeAndBytes 9).2 ++ [5])
            = some (9, [5])) :=
  ⟨by omega, code_bitvector_exact 9 (by omega) [5]⟩

/-- Claim C5: `serialize` on an `UnspentTransaction` fails (raises
`InvariantViolation`) exactly when the record retains no output entries,
i.e. when the presence bitvector is zero. -/
theorem utx_serialize_none_iff (u : UnspentTransaction) :
    u.serialize = none ↔ u.outputs = [] := by
  unfold UnspentTransaction.serialize
  by_cases h : bitvectorOf (u.outputs.map Prod.fst) = 0
  · rw [if_pos h]
    rw [bitvectorOf_eq_zero_iff, List.map_eq_nil] at h
    simp [h]
  · rw [if_neg h]
    rw [bitvectorOf_eq_zero_iff, List.map_eq_nil] at h
    simp [h]

/-- Claim C4: `OutputData.serialize` emits, in order, the varints of
version, height and compressed amount, and when the version is 2 exactly
one further varint holding the literal value
`(height << 1) | reference_height`. -/
theorem outputData_serialize_wire (x : OutputData) :
    _serialize_output_data x = outputDataWireSpec x := by
  unfold _serialize_output_data outputDataWireSpec
  by_cases h : x.version = 2 <;> simp [h]

/-- Claim C2 (failure witness): the `OutputData` round trip is broken by the
version-2 trailer.  Serializing `version=2, amount=5, height=1,
reference_height=0` emits trailer varint `(1 << 1) | 0 = 2`, and
deserializing reads that trailer back verbatim as `reference_height`,
yielding `reference_height = 2 ≠ 0`. -/
theorem outputData_roundtrip_bug :
    _deserialize_output_data (_serialize_output_data (OutputData.mk 2 5 1 0))
      = some (OutputData.mk 2 5 1 2, []) := by
  simp [_serialize_output_data, _deserialize_output_data, serialize_varint,
    deserialize_varint, compress_amount, decompress_amount, outputDataWireSpec]

/-- Claim C7: the `ContractOutPoint` round trip: deserializing the
serialization of any outpoint (contract payload, 256-bit hash, index)
returns the identical outpoint and leaves the rest of the stream intact. -/
theorem contractOutPoint_roundtrip (p : ContractOutPoint) (rest : List Nat)
    (hhash : p.hash < 2 ^ 256) :
    _deserialize_contract_outpoint (_serialize_contract_outpoint p ++ rest)
      = some (p, rest) := by
  unfold _serialize_contract_outpoint _deserialize_contract_outpoint
  rw [List.append_assoc, List.append_assoc, pickler_load_dumps]
  simp only [Option.bind_eq_bind, Option.some_bind]
  rw [hash256_roundtrip p.hash hhash]
  simp only [Option.some_bind]
  rw [deserialize_varint_serialize]
  simp only [Option.bind_eq_bind, Option.some_bind]

/-- Claim C7 witness: concrete round trip of an outpoint. -/
theorem contractOutPoint_roundtrip_witness :
    (ContractOutPoint.mk (Contract.mk [7, 9]) 3 2).hash < 2 ^ 256
    ∧ _deserialize_contract_outpoint
        (_serialize_contract_outpoint (ContractOutPoint.mk (Contract.mk [7, 9]) 3 2) ++ [1])
      = some (ContractOutPoint.mk (Contract.mk [7, 9]) 3 2, [1]) :=
  ⟨by norm_num, contractOutPoint_roundtrip (ContractOutPoint.mk (Contract.mk [7, 9]) 3 2)
    [1] (by norm_num)⟩

/-- Claim C9: the overflow byte string emitted by `serialize` is the minimal
little-endian encoding of `bitvector >> 3` — it never carries a trailing
zero byte and is empty when `bitvector >> 3` is zero — while the decoder
reads exactly the declared number of overflow bytes and accepts non-minimal
(zero-padded) byte strings without error. -/
theorem utx_overflow_canonical (u : UnspentTransaction) (hne : u.outputs ≠ []) :
    (∀ h : (codeAndBytes (bitvectorOf (u.outputs.map Prod.fst))).2 ≠ [],
        (codeAndBytes (bitvectorOf (u.outputs.map Prod.fst))).2.getLast h ≠ 0)
    ∧ (bitvectorOf (u.outputs.map Prod.fst) >>> 3 = 0
        → (codeAndBytes (bitvectorOf (u.outputs.map Prod.fst))).2 = [])
    ∧ (∀ (code : Nat) (B rest : List Nat), B.length = declaredOverflowLen code →
        decodeBitvector code (B ++ rest)
          = some ((code &&& 7) ||| (leBytesToNat B <<< 3), rest)) := by
  refine ⟨?_, ?_, ?_⟩
  · intro h
    exact serialize_leint_getLast _ h
  · intro h0
    rw [codeAndBytes_snd, serialize_leint_eq_nil_iff]
    exact h0
  · intro code B rest hlen
    unfold declaredOverflowLen at hlen
    simp only [decodeBitvector]
    by_cases hc : code &&& 7 = 0
    · rw [if_pos hc] at hlen
      simp only [hc, if_true, if_pos rfl]
      have hne' : code >>> 3 + 1 ≠ 0 := by omega
      rw [if_neg hne', ← hlen, deserialize_leint_append]
      simp [hc]
    · rw [if_neg hc] at hlen
      simp only [hc, if_false]
      by_cases hz : code >>> 3 = 0
      · have hBnil : B = [] := by
          rw [← List.length_eq_zero, hlen, hz]
        rw [if_pos hz, hBnil, List.nil_append]
        have : leBytesToNat ([] : List Nat) = 0 := rfl
        rw [this]
        have hsh : (0 : Nat) <<< 3 = 0 := rfl
        rw [hsh, Nat.or_zero]
      · rw [if_neg hz, ← hlen, deserialize_leint_append]
        simp

/-- Claim C9 witness: concrete serializable record, plus a concrete
non-minimal overflow byte string accepted by the decoder. -/
theorem utx_overflow_canonical_witness :
    (UnspentTransaction.mk 1 0 0 [(4, Output.mk 2 (Contract.mk []))]).outputs ≠ []
    ∧ (∀ h : (codeAndBytes (bitvectorOf
          ((UnspentTransaction.mk 1 0 0 [(4, Output.mk 2 (Contract.mk []))]).outputs.map
            Prod.fst))).2 ≠ [],
        (codeAndBytes (bitvectorOf
          ((UnspentTransaction.mk 1 0 0 [(4, Output.mk 2 (Contract.mk []))]).outputs.map
            Prod.fst))).2.getLast h ≠ 0)
    ∧ decodeBitvector 17 ([2, 0] ++ [9]) = some (17, [9]) := by
  have hmain := utx_overflow_canonical
    (UnspentTransaction.mk 1 0 0 [(4, Output.mk 2 (Contract.mk []))]) (by simp)
  refine ⟨by simp, hmain.1, ?_⟩
  have hlen : ([2, 0] : List Nat).length = declaredOverflowLen 17 := by
    simp [declaredOverflowLen]
  have := hmain.2.2 17 [2, 0] [9] hlen
  rw [this]
  simp only [leBytesToNat]
  norm_num
  decide

/-- Claim C6: the `UnspentTransaction` constructor fails (with the
configuration error) exactly when two or more of the three construction
sources — `transaction` keyword, positional source instance, explicit
`version`/`reference_height` metadata — are supplied together. -/
theorem utxInit_conflict (arg : PosArg) (kw : CtorKwargs) :
    utxInit arg kw = none ↔ 2 ≤ numSources arg kw := by
  rcases kw with ⟨t, v, hh, r⟩
  cases arg <;> cases t <;> cases v <;> cases r <;>
    simp [utxInit, numSources]

/-- Claim C8: `UnspentTransaction` equality compares version and height,
and reference height exactly for version-2 records, before the output
mappings; two records are equal precisely when version, height, reference
height (when the version is 2) and the outputs all agree. -/
theorem utx_eqb_iff (a b : UnspentTransaction) :
    UnspentTransaction.eqb a b = true
      ↔ (a.version = b.version ∧ a.height = b.height
          ∧ (a.version = 2 → a.reference_height = b.reference_height)
          ∧ a.outputs = b.outputs) := by
  unfold UnspentTransaction.eqb
  by_cases h1 : a.height = b.height
  · by_cases h2 : a.version = b.version
    · by_cases h3 : a.version = 2
      · by_cases h4 : a.reference_height = b.reference_height
        · simp [h1, h2, h3, h4]
        · simp [h1, h2, h3, h4]
      · simp [h1, h2, h3]
        tauto
    · simp [h1, h2]
  · simp [h1]

/-- Claim C10: an explicitly passed `reference_height` keyword is consumed
and stored as the `reference_height` field only when the effective version
is 2; for any other version the stored field equals the source object's
reference height (0 when there is no source), and the unconsumed keyword is
forwarded to the underlying mapping constructor instead. -/
theorem utxInit_ref_height (arg : PosArg) (kw : CtorKwargs)
    (u : UnspentTransaction) (fwd : Option Nat)
    (h : utxInit arg kw = some (u, fwd)) :
    (effectiveVersion arg kw = 2
      → u.reference_height = kw.reference_height.getD (sourceRefHeight arg kw)
        ∧ fwd = none)
    ∧ (effectiveVersion arg kw ≠ 2
      → u.reference_height = sourceRefHeight arg kw
        ∧ fwd = kw.reference_height) := by
  have hx : (utxInit arg kw).map (fun p => (p.1.reference_height, p.2))
      = if 2 ≤ numSources arg kw then none
        else some (if effectiveVersion arg kw = 2
                   then (kw.reference_height.getD (sourceRefHeight arg kw), none)
                   else (sourceRefHeight arg kw, kw.reference_height)) := by
    clear h
    rcases kw with ⟨t, v, hh, r⟩
    cases arg <;> cases t <;> cases v <;> cases r <;>
      simp [utxInit, numSources, effectiveVersion, sourceRefHeight]
  rw [h] at hx
  by_cases hn : 2 ≤ numSources arg kw
  · rw [if_pos hn] at hx
    simp at hx
  · rw [if_neg hn] at hx
    by_cases hv : effectiveVersion arg kw = 2
    · rw [if_pos hv] at hx
      simp at hx
      exact ⟨fun _ => hx, fun hne => absurd hv hne⟩
    · rw [if_neg hv] at hx
      simp at hx
      exact ⟨fun h2 => absurd h2 hv, fun _ => hx⟩

/-- Claim C10 witness: a `reference_height` keyword passed without a
version-2 context is not stored in the field (which stays 0) and is instead
forwarded to the mapping constructor. -/
theorem utxInit_ref_height_witness :
    utxInit PosArg.nothing (CtorKwargs.mk none none none (some 5))
        = some (UnspentTransaction.mk 1 0 0 [], some 5)
    ∧ (effectiveVersion PosArg.nothing (CtorKwargs.mk none none none (some 5)) ≠ 2
        → (UnspentTransaction.mk 1 0 0 []).reference_height
            = sourceRefHeight PosArg.nothing (CtorKwargs.mk none none none (some 5))
          ∧ (some 5 : Option Nat)
              = (CtorKwargs.mk none none none (some 5)).reference_height) := by
  have h : utxInit PosArg.nothing (CtorKwargs.mk none none none (some 5))
      = some (UnspentTransaction.mk 1 0 0 [], some 5) := rfl
  exact ⟨h, (utxInit_ref_height PosArg.nothing (CtorKwargs.mk none none none (some 5))
    (UnspentTransaction.mk 1 0 0 []) (some 5) h).2⟩

/-- Claim C1: the `UnspentTransaction` round trip.  For every valid record
(version 1 or 2, at least one retained output, keys in ascending order),
deserializing the bytes produced by `serialize` consumes exactly those
bytes and yields a record with the same version, height, reference height
(when the version is 2) and the same index-to-output mapping. -/
theorem utx_serialize_roundtrip (u : UnspentTransaction) (w rest : List Nat)
    (hsorted : (u.outputs.map Prod.fst).Pairwise (· < ·))
    (hne : u.outputs ≠ [])
    (hver : u.version = 1 ∨ u.version = 2)
    (hw : u.serialize = some w) :
    ∃ u' : UnspentTransaction,
      UnspentTransaction.deserialize (w ++ rest) = some (u', rest)
      ∧ u'.version = u.version
      ∧ u'.height = u.height
      ∧ (u.version = 2 → u'.reference_height = u.reference_height)
      ∧ u'.outputs = u.outputs := by
  have hbvne : bitvectorOf (u.outputs.map Prod.fst) ≠ 0 := by
    rw [ne_eq, bitvectorOf_eq_zero_iff, List.map_eq_nil]
    exact hne
  have hw' : w = serialize_varint u.version
      ++ serialize_varint (codeAndBytes (bitvectorOf (u.outputs.map Prod.fst))).1
      ++ (codeAndBytes (bitvectorOf (u.outputs.map Prod.fst))).2
      ++ serializeOutputs u.outputs
      ++ serialize_varint u.height
      ++ (if u.version = 2 then serialize_varint u.reference_height else []) := by
    unfold UnspentTransaction.serialize at hw
    rw [if_neg hbvne] at hw
    exact (Option.some.inj hw).symm
  subst hw'
  unfold UnspentTransaction.deserialize
  simp only [List.append_assoc]
  rw [deserialize_varint_serialize]
  simp only [Option.bind_eq_bind, Option.some_bind]
  rw [deserialize_varint_serialize]
  simp only [Option.some_bind]
  rw [decodeBitvector_codeAndBytes _ (Nat.pos_of_ne_zero hbvne)]
  simp only [Option.some_bind]
  have hro := readOutputs_serializeOutputs u.outputs 0
    (serialize_varint u.height
      ++ ((if u.version = 2 then serialize_varint u.reference_height else []) ++ rest))
    hsorted (fun p _ => Nat.zero_le p.1)
  rw [Nat.shiftRight_zero] at hro
  rw [hro]
  simp only [Option.some_bind]
  rw [deserialize_varint_serialize]
  simp only [Option.some_bind]
  by_cases hv2 : u.version = 2
  · rw [if_pos hv2, if_pos hv2, deserialize_varint_serialize]
    simp only [Option.some_bind]
    have hinit : utxInit (PosArg.items u.outputs)
        (CtorKwargs.mk none (some u.version) (some u.height) (some u.reference_height))
        = some (UnspentTransaction.mk u.version u.height u.reference_height u.outputs,
            none) := by
      simp [utxInit, hv2]
    rw [hinit]
    simp only [Option.some_bind]
    exact ⟨_, rfl, rfl, rfl, fun _ => rfl, rfl⟩
  · rw [if_neg hv2, if_neg hv2]
    simp only [List.nil_append]
    have hinit : utxInit (PosArg.items u.outputs)
        (CtorKwargs.mk none (some u.version) (some u.height) none)
        = some (UnspentTransaction.mk u.version u.height 0 u.outputs, none) := by
      simp [utxInit, hv2]
    rw [hinit]
    simp only [Option.some_bind]
    exact ⟨_, rfl, rfl, rfl, fun hx => absurd hx hv2, rfl⟩

set_option maxRecDepth 4000 in
/-- Claim C1 witness: a concrete version-2 record with outputs at indices 1
and 4 serializes to an explicit byte string, and the round trip recovers the
record. -/
theorem utx_serialize_roundtrip_witness :
    ((UnspentTransaction.mk 2 7 9
        [(1, Output.mk 3 (Contract.mk [1, 2])), (4, Output.mk 0 (Contract.mk []))]).serialize
      = some [2, 10, 2, 4, 2, 1, 2, 1, 0, 7, 9])
    ∧ ∃ u' : UnspentTransaction,
        UnspentTransaction.deserialize ([2, 10, 2, 4, 2, 1, 2, 1, 0, 7, 9] ++ [99])
          = some (u', [99])
        ∧ u'.version = 2
        ∧ u'.height = 7
        ∧ ((2 : Nat) = 2 → u'.reference_height = 9)
        ∧ u'.outputs = [(1, Output.mk 3 (Contract.mk [1, 2])), (4, Output.mk 0 (Contract.mk []))] := by
  have h18 : (18 : Nat) &&& 7 = 2 := by decide
  have hser : (UnspentTransaction.mk 2 7 9
      [(1, Output.mk 3 (Contract.mk [1, 2])), (4, Output.mk 0 (Contract.mk []))]).serialize
      = some [2, 10, 2, 4, 2, 1, 2, 1, 0, 7, 9] := by
    simp only [UnspentTransaction.serialize, serializeOutputs, bitvectorOf,
      List.map_cons, List.map_nil, List.foldl_cons, List.foldl_nil,
      List.foldr_cons, List.foldr_nil]
    simp [serialize_varint, serialize_leint, codeAndBytes, pickler_dumps,
      compress_amount, h18]
  exact ⟨hser, utx_serialize_roundtrip
    (UnspentTransaction.mk 2 7 9
      [(1, Output.mk 3 (Contract.mk [1, 2])), (4, Output.mk 0 (Contract.mk []))])
    [2, 10, 2, 4, 2, 1, 2, 1, 0, 7, 9] [99]
    (by decide) (by decide) (Or.inr rfl) hser⟩

end Ledger
